import Mathlib

/-!
Verification of the Huffman coding script `huffman.py`.

The script compresses a string by building a frequency map, constructing a
Huffman tree (repeatedly re-sorting a node list by weight and merging the two
smallest nodes), deriving a character-to-bitstring schema from the tree,
encoding the input as a string of 0/1 characters, and writing to the file the
UTF-8 bytes of `repr(freq_map)` followed by a null marker byte and the packed
payload bits (`bitarray.tofile` zero-pads the last byte).  Decompression scans
the file bytes for the first null byte, takes everything before it as the
frequency-map header (decoded and evaluated back to a dict), rebuilds the tree
and schema, and greedily decodes the remaining bits.

The embedding below models Python dicts as association lists in insertion
order, file contents as lists of byte values (`Nat`, each < 256), bits as
`Bool`, and raised Python exceptions as `Except PyErr`.  Recursions that are
`while` loops in the source use explicit fuel so that every definition
evaluates by kernel reduction.
-/

/-- Failure outcomes.  The first five model the Python exceptions the script
can actually raise (`IndexError` from `construct_tree` on an empty map,
`KeyError` from `encode_string_with_schema`, `ValueError` raised in
`decompress_from_file`, `UnicodeDecodeError`/`SyntaxError` from decoding and
`eval`-ing the header).  The last four are the error taxonomy named by the
design document (`EmptyInputError`, `InvalidInputError`, `CorruptHeaderError`,
`DecodeError`); the script defines no such exceptions, and they are included
only so that statements can compare what the code raises against them. -/
inductive PyErr where
  | indexError
  | keyError
  | valueError
  | unicodeDecodeError
  | syntaxError
  | emptyInputError
  | invalidInputError
  | corruptHeaderError
  | decodeError
deriving DecidableEq

/-- `class Node`: a tree node.  `construct_tree` only ever creates leaves
(`Node(value, char)`, both children `None`) and internal nodes
(`Node(value, None, left, right)`), so the embedding uses exactly those two
shapes.  `get_schema` distinguishes them by `char is not None`. -/
inductive Node where
  | leaf (value : Nat) (char : Char)
  | internal (value : Nat) (left right : Node)
deriving DecidableEq

/-- `node.value`. -/
def Node.value : Node → Nat
  | .leaf v _ => v
  | .internal v _ _ => v

/-- Association-list lookup, modelling `dict[k]` / `k in dict`. -/
def alookup {α β : Type} [DecidableEq α] : List (α × β) → α → Option β
  | [], _ => none
  | p :: r, a => if p.1 = a then some p.2 else alookup r a

/-- One step of `generate_frequency_map`: `char_map[char] += 1` if present
(updating the entry in place, preserving insertion order), else
`char_map[char] = 1` (appending a new entry). -/
def pyDictIncr (m : List (Char × Nat)) (c : Char) : List (Char × Nat) :=
  if (alookup m c).isSome then
    m.map (fun p => if p.1 = c then (p.1, p.2 + 1) else p)
  else
    m ++ [(c, 1)]

/-- `generate_frequency_map(string)`: left-to-right fold of the counting loop
(the `print`/`stopwatch` calls are I/O and not modelled). -/
def generate_frequency_map (s : String) : List (Char × Nat) :=
  s.data.foldl pyDictIncr []

/-- The order in which Python's stable `list.sort(key=lambda x: x.value)`
ranks the (position, node) pairs of the current list: strictly smaller weight
first, and for equal weights the earlier position first. -/
def nodeLexLe (a b : Nat × Node) : Prop :=
  a.2.value < b.2.value ∨ (a.2.value = b.2.value ∧ a.1 ≤ b.1)

instance : DecidableRel nodeLexLe := fun a b => by
  unfold nodeLexLe; infer_instance

/-- `f` is a stable sort of node lists by `value`: `f l` is obtained by
ordering the position-annotated list `l.enum` into some permutation sorted by
(weight, original position) and dropping the positions.  This is the standard
characterisation of Python's stable `list.sort(key=...)`, and (proved below)
it determines `f l` uniquely. -/
def StableSortByValue (f : List Node → List Node) : Prop :=
  ∀ l : List Node, ∃ l' : List (Nat × Node),
    l'.Perm l.enum ∧ List.Sorted nodeLexLe l' ∧ f l = l'.map Prod.snd

/-- A concrete stable sort by `value` (insertion sort on the
position-annotated list), standing in for Python's Timsort. -/
def pySortByValue (l : List Node) : List Node :=
  (List.insertionSort nodeLexLe l.enum).map Prod.snd

/-- The merge loop of `construct_tree`, parametrised by the sort function and
by fuel (the loop runs at most `len(char_map) - 1` times): while more than one
node remains, sort the list by weight, pop the two smallest as `left` and
`right`, and append `Node(left.value + right.value, None, left, right)`. -/
def constructLoopWith (f : List Node → List Node) : Nat → List Node → List Node
  | _, [] => []
  | _, [x] => [x]
  | 0, l => l
  | fuel + 1, l =>
    match f l with
    | a :: b :: rest =>
        constructLoopWith f fuel (rest ++ [Node.internal (a.value + b.value) a b])
    | s => s

/-- `construct_tree(char_map)`, parametrised by the sort function.  Builds one
leaf per entry in insertion order, runs the merge loop, and returns
`ascending_keys[0]` — which on an empty frequency map raises `IndexError`. -/
def construct_treeWith (f : List Node → List Node) (char_map : List (Char × Nat)) :
    Except PyErr Node :=
  match constructLoopWith f char_map.length (char_map.map fun p => Node.leaf p.2 p.1) with
  | [] => .error .indexError
  | x :: _ => .ok x

/-- `construct_tree` with the stable sort the interpreter provides. -/
def construct_tree : List (Char × Nat) → Except PyErr Node :=
  construct_treeWith pySortByValue

/-- Python 3.9 dict union `left | right`: keys of `left` in their order with
values overridden by `right` where present, followed by the keys only in
`right`, in their order. -/
def pyDictUnion (a b : List (Char × String)) : List (Char × String) :=
  a.map (fun p => match alookup b p.1 with | some v => (p.1, v) | none => p) ++
    b.filter (fun p => (alookup a p.1).isNone)

/-- `Node.get_schema(pattern)`: at a leaf return `{char: pattern}`; otherwise
recurse left with `pattern + "0"` and right with `pattern + "1"` and join the
two dicts with `|`. -/
def Node.get_schema : Node → String → List (Char × String)
  | .leaf _ c, pat => [(c, pat)]
  | .internal _ l r, pat =>
      pyDictUnion (l.get_schema (pat ++ "0")) (r.get_schema (pat ++ "1"))

/-- The per-character encoding loop of `encode_string_with_schema`:
`encoding[char]` raises `KeyError` for a character not in the schema. -/
def encodeChars (enc : List (Char × String)) : List Char → Except PyErr (List String)
  | [] => .ok []
  | c :: cs =>
    match alookup enc c with
    | none => .error .keyError
    | some code => (encodeChars enc cs).map (fun l => code :: l)

/-- `encode_string_with_schema(string, encoding)`: collect `encoding[char]`
for each character and `"".join` the pieces. -/
def encode_string_with_schema (s : String) (encoding : List (Char × String)) :
    Except PyErr String :=
  (encodeChars encoding s.data).map (fun l => String.join l)

/-- Sequential dict construction with overriding, modelling
`dict((v, k) for k, v in encoding.items())`: an existing key is updated in
place, a new key is appended. -/
def pyDictInsert {α β : Type} [DecidableEq α] (m : List (α × β)) (k : α) (v : β) :
    List (α × β) :=
  if (alookup m k).isSome then
    m.map (fun p => if p.1 = k then (k, v) else p)
  else
    m ++ [(k, v)]

/-- The swapped (code-to-character) dict built at the top of
`decode_string_with_schema`. -/
def pySwapDict (enc : List (Char × String)) : List (String × Char) :=
  enc.foldl (fun m p => pyDictInsert m p.2 p.1) []

/-- The decoding loop of `decode_string_with_schema`: grow `pattern` one
character at a time, and whenever `pattern in encoding`, append the decoded
character to `output` and reset `pattern`.  Returns the final `(output,
pattern)` pair; the function itself returns only `output`, so a non-empty
final `pattern` is dropped. -/
def decodeLoop (sw : List (String × Char)) :
    List Char → String → String → String × String
  | [], output, pat => (output, pat)
  | c :: cs, output, pat =>
    let pat := pat.push c
    match alookup sw pat with
    | some ch => decodeLoop sw cs (output.push ch) ""
    | none => decodeLoop sw cs output pat

/-- `decode_string_with_schema(string, encoding)`. -/
def decode_string_with_schema (s : String) (encoding : List (Char × String)) : String :=
  (decodeLoop (pySwapDict encoding) s.data "" "").1

/-- `huffman_encode(string)`: frequency map, tree, schema, encoded string;
returns `(encoding, encoded_string, freq_map)`.  Parametrised by the sort
function used in tree construction. -/
def huffman_encodeWith (f : List Node → List Node) (s : String) :
    Except PyErr (List (Char × String) × String × List (Char × Nat)) := do
  let freq_map := generate_frequency_map s
  let top_node ← construct_treeWith f freq_map
  let encoding := top_node.get_schema ""
  let encoded_string ← encode_string_with_schema s encoding
  .ok (encoding, encoded_string, freq_map)

/-- `huffman_encode` with the interpreter's stable sort. -/
def huffman_encode : String →
    Except PyErr (List (Char × String) × String × List (Char × Nat)) :=
  huffman_encodeWith pySortByValue

/-- Lowercase hexadecimal digit, as used by Python string escapes. -/
def hexDigitChar (n : Nat) : Char :=
  if n < 10 then Char.ofNat (48 + n) else Char.ofNat (87 + n)

/-- Decimal digits of a natural number, via fuel (`n` itself bounds the
number of divisions).  Matches Python's `repr` of a non-negative int. -/
def natDecAux : Nat → Nat → List Char
  | 0, n => [Char.ofNat (48 + n % 10)]
  | fuel + 1, n =>
    if n < 10 then [Char.ofNat (48 + n)]
    else natDecAux fuel (n / 10) ++ [Char.ofNat (48 + n % 10)]

/-- Decimal representation of a count, as `repr` prints it. -/
def natDec (n : Nat) : List Char := natDecAux n n

/-- Models CPython `repr` of a single-character string, as it appears for
each key when `repr(character_map)` is taken in `save_to_file`.  A lone
apostrophe is double-quoted; backslash, newline, carriage return and tab use
their two-character escapes; other printable characters appear verbatim
(printability is approximated by the ASCII printable range — CPython also
prints many non-ASCII characters verbatim, but this only changes which
non-zero bytes the header holds); everything else uses `\xHH`, `\uHHHH` or
`\UHHHHHHHH` escapes.  `repr` is a Python builtin, so this is a model of the
runtime, not of code under `src/`. -/
def pyCharLiteral (c : Char) : List Char :=
  if c = '\'' then ['"', '\'', '"']
  else if c = '\\' then ['\'', '\\', '\\', '\'']
  else if c = '\n' then ['\'', '\\', 'n', '\'']
  else if c = '\r' then ['\'', '\\', 'r', '\'']
  else if c = '\t' then ['\'', '\\', 't', '\'']
  else if 32 ≤ c.toNat ∧ c.toNat ≤ 126 then ['\'', c, '\'']
  else if c.toNat < 256 then
    ['\'', '\\', 'x', hexDigitChar (c.toNat / 16), hexDigitChar (c.toNat % 16), '\'']
  else if c.toNat < 65536 then
    ['\'', '\\', 'u', hexDigitChar (c.toNat / 4096 % 16), hexDigitChar (c.toNat / 256 % 16),
     hexDigitChar (c.toNat / 16 % 16), hexDigitChar (c.toNat % 16), '\'']
  else
    ['\'', '\\', 'U', hexDigitChar (c.toNat / 268435456 % 16),
     hexDigitChar (c.toNat / 16777216 % 16), hexDigitChar (c.toNat / 1048576 % 16),
     hexDigitChar (c.toNat / 65536 % 16), hexDigitChar (c.toNat / 4096 % 16),
     hexDigitChar (c.toNat / 256 % 16), hexDigitChar (c.toNat / 16 % 16),
     hexDigitChar (c.toNat % 16), '\'']

/-- One `"key: value"` piece of the dict repr. -/
def pyEntryRepr (p : Char × Nat) : List Char :=
  pyCharLiteral p.1 ++ [':', ' '] ++ natDec p.2

/-- The `", "`-separated entry list of the dict repr. -/
def pyEntriesRepr : List (Char × Nat) → List Char
  | [] => []
  | [p] => pyEntryRepr p
  | p :: rest => pyEntryRepr p ++ [',', ' '] ++ pyEntriesRepr rest

/-- Models CPython `repr(character_map)` for a dict of single-character keys
and integer counts, in insertion order: `\x7b'a': 2, 'b': 3\x7d` (braces at
the ends). -/
def pyDictRepr (m : List (Char × Nat)) : List Char :=
  Char.ofNat 123 :: pyEntriesRepr m ++ [Char.ofNat 125]

/-- UTF-8 encoding of one character (the bytes `str.encode("utf-8")` emits
for it). -/
def utf8Char (c : Char) : List Nat :=
  if c.toNat < 128 then [c.toNat]
  else if c.toNat < 2048 then [192 + c.toNat / 64, 128 + c.toNat % 64]
  else if c.toNat < 65536 then
    [224 + c.toNat / 4096, 128 + c.toNat / 64 % 64, 128 + c.toNat % 64]
  else
    [240 + c.toNat / 262144, 128 + c.toNat / 4096 % 64, 128 + c.toNat / 64 % 64,
     128 + c.toNat % 64]

/-- UTF-8 encoding of a character list. -/
def utf8Encode (s : List Char) : List Nat :=
  s.foldr (fun c acc => utf8Char c ++ acc) []

/-- The bits `bitarray.extend(string)` appends for an encoded string of `'0'`
and `'1'` characters. -/
def bitsOfEncodedString (s : String) : List Bool :=
  s.data.map (fun c => c = '1')

/-- The byte value of eight bits, most significant bit first. -/
def byteOfBits (bs : List Bool) : Nat :=
  bs.foldl (fun acc b => 2 * acc + (if b then 1 else 0)) 0

/-- Zero-pad a final group to eight bits. -/
def padTo8 (bs : List Bool) : List Bool :=
  bs ++ List.replicate (8 - bs.length) false

/-- `bitarray.tofile`: pack the bit sequence eight bits per byte, most
significant bit first, zero-padding the final byte.  Fuel-driven recursion
(the list length bounds the number of produced bytes). -/
def packBitsAux : Nat → List Bool → List Nat
  | 0, _ => []
  | _, [] => []
  | fuel + 1, l => byteOfBits (padTo8 (l.take 8)) :: packBitsAux fuel (l.drop 8)

/-- The bytes `bitarray.tofile` writes for a bit sequence. -/
def packBits (l : List Bool) : List Nat := packBitsAux l.length l

/-- The eight bits of a byte value, most significant first, as
`bitarray.fromfile` loads them. -/
def bitsOfByte (n : Nat) : List Bool :=
  [n / 128 % 2 = 1, n / 64 % 2 = 1, n / 32 % 2 = 1, n / 16 % 2 = 1,
   n / 8 % 2 = 1, n / 4 % 2 = 1, n / 2 % 2 = 1, n % 2 = 1]

/-- All bits of a byte buffer. -/
def bitsOfBytes (l : List Nat) : List Bool :=
  l.foldr (fun b acc => bitsOfByte b ++ acc) []

/-- `save_to_file(string, character_map, file_name)`, modelled as the byte
content written to the `.huff` file: the UTF-8 bytes of
`repr(character_map)`, then the packed bits of `bitarray("00000000")`
extended with the encoded string — i.e. a null marker byte followed by the
zero-padded payload.  (Opening and writing the file itself is I/O outside
the model.) -/
def save_to_file (string : String) (character_map : List (Char × Nat)) : List Nat :=
  utf8Encode (pyDictRepr character_map) ++
    packBits (List.replicate 8 false ++ bitsOfEncodedString string)

/-- The header scan of `decompress_from_file`: walk the file bytes from the
start and return the index of the first byte equal to the null marker.  (The
source slices the loaded bit array eight bits at a time at byte offsets and
compares each slice with `bitarray("00000000")`; since the file is a whole
number of bytes, slice `i` is exactly byte `i`.)  `none` models the loop
finishing with `freq_map is None`. -/
def headerBoundary : List Nat → Option Nat
  | [] => none
  | b :: r => if b = 0 then some 0 else (headerBoundary r).map (· + 1)

/-- UTF-8 decoding of a byte buffer (`bytes.decode("utf-8")`), fuel-driven
(the buffer length bounds the number of decoded characters); `none` models
`UnicodeDecodeError`. -/
def utf8DecodeAux : Nat → List Nat → Option (List Char)
  | _, [] => some []
  | 0, _ :: _ => none
  | fuel + 1, b :: rest =>
    if b < 128 then
      (utf8DecodeAux fuel rest).map (fun cs => Char.ofNat b :: cs)
    else if b < 194 then none
    else if b < 224 then
      match rest with
      | b2 :: rest2 =>
        if 128 ≤ b2 ∧ b2 < 192 then
          (utf8DecodeAux fuel rest2).map
            (fun cs => Char.ofNat ((b - 192) * 64 + (b2 - 128)) :: cs)
        else none
      | [] => none
    else if b < 240 then
      match rest with
      | b2 :: b3 :: rest3 =>
        if (128 ≤ b2 ∧ b2 < 192) ∧ (128 ≤ b3 ∧ b3 < 192) then
          (utf8DecodeAux fuel rest3).map
            (fun cs => Char.ofNat ((b - 224) * 4096 + (b2 - 128) * 64 + (b3 - 128)) :: cs)
        else none
      | _ => none
    else if b < 245 then
      match rest with
      | b2 :: b3 :: b4 :: rest4 =>
        if (128 ≤ b2 ∧ b2 < 192) ∧ (128 ≤ b3 ∧ b3 < 192) ∧ (128 ≤ b4 ∧ b4 < 192) then
          (utf8DecodeAux fuel rest4).map
            (fun cs => Char.ofNat ((b - 240) * 262144 + (b2 - 128) * 4096 +
              (b3 - 128) * 64 + (b4 - 128)) :: cs)
        else none
      | _ => none
    else none

/-- `bytes.decode("utf-8")` on a whole buffer. -/
def utf8Decode (l : List Nat) : Option (List Char) :=
  utf8DecodeAux l.length l

/-- Numeric value of a lowercase hexadecimal digit. -/
def hexVal (c : Char) : Option Nat :=
  let n := c.toNat
  if 48 ≤ n ∧ n ≤ 57 then some (n - 48)
  else if 97 ≤ n ∧ n ≤ 102 then some (n - 87)
  else none

/-- Parse a fixed number of hex digits. -/
def parseHex : Nat → List Nat → List Char → Option (Nat × List Char)
  | 0, acc, rest =>
    match acc with
    | [] => none
    | _ => some (acc.foldl (fun a d => 16 * a + d) 0, rest)
  | k + 1, acc, cs =>
    match cs with
    | [] => none
    | c :: rest =>
      match hexVal c with
      | some d => parseHex k (acc ++ [d]) rest
      | none => none

/-- Parse one single-character string literal of the dict text, in the forms
`repr` produces (see `pyCharLiteral`). -/
def parseCharLit : List Char → Option (Char × List Char)
  | '"' :: c :: '"' :: rest => some (c, rest)
  | '\'' :: '\\' :: rest =>
    (match rest with
     | '\\' :: '\'' :: r => some ('\\', r)
     | 'n' :: '\'' :: r => some ('\n', r)
     | 'r' :: '\'' :: r => some ('\r', r)
     | 't' :: '\'' :: r => some ('\t', r)
     | 'x' :: r =>
       match parseHex 2 [] r with
       | some (n, '\'' :: r2) => some (Char.ofNat n, r2)
       | _ => none
     | 'u' :: r =>
       match parseHex 4 [] r with
       | some (n, '\'' :: r2) => some (Char.ofNat n, r2)
       | _ => none
     | 'U' :: r =>
       match parseHex 8 [] r with
       | some (n, '\'' :: r2) => some (Char.ofNat n, r2)
       | _ => none
     | _ => none)
  | '\'' :: c :: '\'' :: rest => some (c, rest)
  | _ => none

/-- Parse a decimal integer literal (at least one digit). -/
def parseNatLit (cs : List Char) : Option (Nat × List Char) :=
  let digits := cs.takeWhile (fun c => 48 ≤ c.toNat ∧ c.toNat ≤ 57)
  match digits with
  | [] => none
  | _ => some (digits.foldl (fun a c => 10 * a + (c.toNat - 48)) 0,
               cs.drop digits.length)

/-- Parse the `", "`-separated entries of the dict literal up to the closing
brace, fuel-driven.  Expects to start at a key literal. -/
def parseEntries : Nat → List Char → Option (List (Char × Nat))
  | 0, _ => none
  | fuel + 1, cs => do
    let (k, r1) ← parseCharLit cs
    match r1 with
    | ':' :: ' ' :: r2 => do
      let (v, r3) ← parseNatLit r2
      match r3 with
      | ',' :: ' ' :: r4 => do
        let rest ← parseEntries fuel r4
        some ((k, v) :: rest)
      | c :: r4 =>
        if c = Char.ofNat 125 ∧ r4 = [] then some [(k, v)] else none
      | [] => none
    | _ => none

/-- Models `eval(freq_map_string)` for the dict-literal text that
`repr(character_map)` produced: an opening brace, `", "`-separated
`'key': count` entries, and a closing brace.  `eval` is a Python builtin, so
this models the runtime evaluation of exactly that literal shape; any other
text fails (`SyntaxError`). -/
def pyEvalFreqMap (s : String) : Except PyErr (List (Char × Nat)) :=
  match s.data with
  | [] => .error .syntaxError
  | c :: rest =>
    if c = Char.ofNat 123 then
      if rest = [Char.ofNat 125] then .ok []
      else
        match parseEntries (rest.length + 1) rest with
        | some m => .ok m
        | none => .error .syntaxError
    else .error .syntaxError

/-- `decompress_from_file`, modelled on the byte content of the `.huff` file
(the extension prompt and file I/O are outside the model; the result is the
decoded text the function writes out).  Scan for the null marker byte — if
none is found, `ValueError("File header is corrupted or non-existent")` is
raised; decode and `eval` the header into a frequency map; turn the remaining
bytes into a string of `'1'`/`'0'` characters; rebuild the tree and schema;
and decode. -/
def decompress_from_file (b : List Nat) : Except PyErr String :=
  match headerBoundary b with
  | none => .error .valueError
  | some i =>
    match utf8Decode (b.take i) with
    | none => .error .unicodeDecodeError
    | some headerChars => do
      let freq_map ← pyEvalFreqMap (String.mk headerChars)
      let encoded_string :=
        String.mk ((bitsOfBytes (b.drop (i + 1))).map (fun x => if x then '1' else '0'))
      let top_node ← construct_tree freq_map
      let encoding := top_node.get_schema ""
      .ok (decode_string_with_schema encoded_string encoding)

/-- The compression pipeline of the script's main block: `huffman_encode`
then `save_to_file`, returning the byte content of the `.huff` file.
Parametrised by the sort function used in tree construction. -/
def compressBytesWith (f : List Node → List Node) (s : String) :
    Except PyErr (List Nat) := do
  let (_, encoded_string, freq_map) ← huffman_encodeWith f s
  .ok (save_to_file encoded_string freq_map)

/-- The compression pipeline with the interpreter's stable sort. -/
def compressBytes : String → Except PyErr (List Nat) :=
  compressBytesWith pySortByValue

/-- Compress then decompress: the round trip the script performs on
`test_file`. -/
def roundTrip (s : String) : Except PyErr String :=
  (compressBytes s).bind decompress_from_file

/-- The byte content of the `.huff` container the script produces for the
input `"ab"` (frequency map `\x7b'a': 1, 'b': 1\x7d`, codes `a = "0"`,
`b = "1"`, payload bits `01` zero-padded to a byte). -/
def abHuffFile : List Nat := (compressBytes "ab").toOption.getD []

/-- Claim C1: decompressing the compressed form of a non-empty input is
claimed to return exactly the original input.  The code violates this: no
bit count is stored, so the zero bits `bitarray.tofile` pads the last byte
with are decoded as further symbols.  For the input `"ab"` (codes `a = "0"`,
`b = "1"`, payload bits `01` padded to `01000000`) the full
compress–serialize–parse–decode pipeline returns `"abaaaaaa"`, not `"ab"`. -/
theorem c1_roundtrip_code_bug :
    roundTrip "ab" = .ok "abaaaaaa" ∧ "abaaaaaa" ≠ "ab" :=
  ⟨rfl, by decide⟩

/-- Claim C2: for a frequency table with exactly one entry the tree builder
is claimed to return an internal root with the leaf as a child, so that the
symbol gets a non-empty code.  The code violates this: with one entry the
merge loop never runs and `construct_tree` returns the bare leaf, so
`get_schema` assigns the zero-length code `""`, the encoded string is empty,
and `"aaaa"` decompresses to `""`. -/
theorem c2_single_symbol_code_bug :
    construct_tree [('a', 4)] = .ok (.leaf 4 'a') ∧
    (Node.leaf 4 'a').get_schema "" = [('a', "")] ∧
    generate_frequency_map "aaaa" = [('a', 4)] ∧
    roundTrip "aaaa" = .ok "" ∧ "" ≠ "aaaa" :=
  ⟨rfl, rfl, rfl, rfl, by decide⟩

/-- Claim C3 counterexample: the claim says the header boundary is found
from explicit length/count fields only, never by scanning for a marker byte
value, so a byte value occurring inside the serialized frequency table could
not be misread as the end of the header.  In fact the parser's boundary for
the `"ab"` container is precisely the position of the first zero byte (16,
the marker written after the 16 header bytes), and when a zero byte sits
inside the serialized-frequency-table region (position 3) the scan reads it
as the end of the header: the boundary becomes 3 and parsing then chokes on
the three-byte fragment of the dict text. -/
theorem c3_marker_scan_counterexample :
    compressBytes "ab" = .ok abHuffFile ∧
    (utf8Encode (pyDictRepr (generate_frequency_map "ab"))).length = 16 ∧
    headerBoundary abHuffFile = some 16 ∧
    headerBoundary (abHuffFile.set 3 0) = some 3 ∧
    decompress_from_file (abHuffFile.set 3 0) = .error .syntaxError :=
  ⟨rfl, rfl, rfl, rfl, rfl⟩

/-- Claim C5 counterexample: compressing the empty input is claimed to fail
with a defined `EmptyInputError`, and building a tree from an empty
frequency table with `InvalidInputError`.  The script defines no such
exceptions: `construct_tree` on the empty map evaluates `ascending_keys[0]`
on an empty list, and the whole pipeline fails with an uncaught
`IndexError`, which is neither of the claimed errors. -/
theorem c5_error_identity_counterexample :
    compressBytes "" = .error .indexError ∧
    construct_tree [] = .error .indexError ∧
    PyErr.indexError ≠ PyErr.emptyInputError ∧
    PyErr.indexError ≠ PyErr.invalidInputError :=
  ⟨rfl, rfl, by decide, by decide⟩

/-- Claim C5 as amended: compressing the empty input fails — with an
uncaught `IndexError` from `construct_tree` indexing the empty candidate
list, there being no `EmptyInputError`/`InvalidInputError` in the code — and
never produces a container. -/
theorem c5_empty_input_amended :
    huffman_encode "" = .error .indexError ∧
    construct_tree [] = .error .indexError ∧
    compressBytes "" = .error .indexError :=
  ⟨rfl, rfl, rfl⟩

/-- Claim C6 counterexample: decoding is claimed to fail with `DecodeError`
when trailing bits cannot form a complete code.  `decode_string_with_schema`
returns a plain string and cannot signal an error at all: decoding the
single bit `"1"` against the table `a = "0"`, `b = "10"`, `c = "11"` leaves
the pattern `"1"`, which matches no code, and the function silently returns
`""`, discarding the bit. -/
theorem c6_silent_discard_counterexample :
    decode_string_with_schema "1" [('a', "0"), ('b', "10"), ('c', "11")] = "" ∧
    alookup (pySwapDict [('a', "0"), ('b', "10"), ('c', "11")]) "1" = none :=
  ⟨rfl, rfl⟩

/-- Claim C7 counterexample: truncating a valid container is claimed to make
parsing fail with `CorruptHeaderError`, never a silent partial decode.
Truncating the 18-byte `"ab"` container to 17 bytes (keeping the header and
the marker, dropping the payload byte) parses without any error and silently
decodes to `""`. -/
theorem c7_truncation_counterexample :
    compressBytes "ab" = .ok abHuffFile ∧
    abHuffFile.length = 18 ∧
    decompress_from_file (abHuffFile.take 17) = .ok "" :=
  ⟨rfl, rfl, rfl⟩

/-! ### The serialized header contains no null byte, so the marker scan is unambiguous -/

theorem hexDigitChar_toNat_ne_zero {n : Nat} (h : n < 16) : (hexDigitChar n).toNat ≠ 0 := by
  interval_cases n <;> decide

theorem natDecAux_toNat_ne_zero (fuel n : Nat) :
    ∀ c ∈ natDecAux fuel n, c.toNat ≠ 0 := by
  induction fuel generalizing n with
  | zero =>
    intro c hc
    simp only [natDecAux, List.mem_singleton] at hc
    subst hc
    have h : n % 10 < 10 := Nat.mod_lt _ (by omega)
    set k := n % 10 with hk
    interval_cases k <;> decide
  | succ fuel ih =>
    intro c hc
    simp only [natDecAux] at hc
    split at hc
    · simp only [List.mem_singleton] at hc
      subst hc
      rename_i h
      interval_cases n <;> decide
    · rw [List.mem_append] at hc
      rcases hc with hc | hc
      · exact ih (n / 10) c hc
      · simp only [List.mem_singleton] at hc
        subst hc
        have h : n % 10 < 10 := Nat.mod_lt _ (by omega)
        set k := n % 10 with hk
        interval_cases k <;> decide

theorem pyCharLiteral_toNat_ne_zero (x : Char) :
    ∀ c ∈ pyCharLiteral x, c.toNat ≠ 0 := by
  intro c hc
  unfold pyCharLiteral at hc
  split_ifs at hc with h1 h2 h3 h4 h5 h6 h7 h8 <;>
    simp only [List.mem_cons, List.not_mem_nil, or_false] at hc
  · rcases hc with rfl | rfl | rfl <;> decide
  · rcases hc with rfl | rfl | rfl | rfl <;> decide
  · rcases hc with rfl | rfl | rfl | rfl <;> decide
  · rcases hc with rfl | rfl | rfl | rfl <;> decide
  · rcases hc with rfl | rfl | rfl | rfl <;> decide
  · rcases hc with rfl | rfl | rfl
    · decide
    · omega
    · decide
  · rcases hc with rfl | rfl | rfl | rfl | rfl | rfl
    · decide
    · decide
    · decide
    · exact hexDigitChar_toNat_ne_zero (by omega)
    · exact hexDigitChar_toNat_ne_zero (by omega)
    · decide
  · rcases hc with rfl | rfl | rfl | rfl | rfl | rfl | rfl | rfl
    · decide
    · decide
    · decide
    · exact hexDigitChar_toNat_ne_zero (by omega)
    · exact hexDigitChar_toNat_ne_zero (by omega)
    · exact hexDigitChar_toNat_ne_zero (by omega)
    · exact hexDigitChar_toNat_ne_zero (by omega)
    · decide
  · rcases hc with rfl | rfl | rfl | rfl | rfl | rfl | rfl | rfl | rfl | rfl | rfl | rfl
    · decide
    · decide
    · decide
    · exact hexDigitChar_toNat_ne_zero (by omega)
    · exact hexDigitChar_toNat_ne_zero (by omega)
    · exact hexDigitChar_toNat_ne_zero (by omega)
    · exact hexDigitChar_toNat_ne_zero (by omega)
    · exact hexDigitChar_toNat_ne_zero (by omega)
    · exact hexDigitChar_toNat_ne_zero (by omega)
    · exact hexDigitChar_toNat_ne_zero (by omega)
    · exact hexDigitChar_toNat_ne_zero (by omega)
    · decide

theorem pyEntryRepr_toNat_ne_zero (p : Char × Nat) :
    ∀ c ∈ pyEntryRepr p, c.toNat ≠ 0 := by
  intro c hc
  unfold pyEntryRepr at hc
  rw [List.append_assoc, List.mem_append] at hc
  rcases hc with hc | hc
  · exact pyCharLiteral_toNat_ne_zero _ _ hc
  · rw [List.mem_append] at hc
    rcases hc with hc | hc
    · simp only [List.mem_cons, List.not_mem_nil, or_false] at hc
      rcases hc with rfl | rfl <;> decide
    · exact natDecAux_toNat_ne_zero _ _ _ hc

theorem pyEntriesRepr_toNat_ne_zero (m : List (Char × Nat)) :
    ∀ c ∈ pyEntriesRepr m, c.toNat ≠ 0 := by
  induction m with
  | nil => intro c hc; simp [pyEntriesRepr] at hc
  | cons p rest ih =>
    intro c hc
    cases rest with
    | nil => exact pyEntryRepr_toNat_ne_zero p c hc
    | cons q r =>
      simp only [pyEntriesRepr] at hc
      rw [List.append_assoc, List.mem_append] at hc
      rcases hc with hc | hc
      · exact pyEntryRepr_toNat_ne_zero p c hc
      · rw [List.mem_append] at hc
        rcases hc with hc | hc
        · simp only [List.mem_cons, List.not_mem_nil, or_false] at hc
          rcases hc with rfl | rfl <;> decide
        · exact ih c hc

theorem pyDictRepr_toNat_ne_zero (m : List (Char × Nat)) :
    ∀ c ∈ pyDictRepr m, c.toNat ≠ 0 := by
  intro c hc
  unfold pyDictRepr at hc
  simp only [List.mem_cons, List.mem_append, List.mem_singleton, List.not_mem_nil,
    or_false] at hc
  rcases hc with (rfl | hc) | rfl
  · decide
  · exact pyEntriesRepr_toNat_ne_zero m c hc
  · decide

theorem utf8Char_ne_zero {c : Char} (h : c.toNat ≠ 0) :
    ∀ b ∈ utf8Char c, b ≠ 0 := by
  intro b hb
  unfold utf8Char at hb
  split_ifs at hb <;>
    simp only [List.mem_cons, List.not_mem_nil, or_false] at hb <;>
    rcases hb with rfl | hb <;> omega

theorem utf8Encode_ne_zero (l : List Char) (h : ∀ c ∈ l, c.toNat ≠ 0) :
    ∀ b ∈ utf8Encode l, b ≠ 0 := by
  induction l with
  | nil => intro b hb; simp [utf8Encode] at hb
  | cons c cs ih =>
    intro b hb
    have : utf8Encode (c :: cs) = utf8Char c ++ utf8Encode cs := rfl
    rw [this, List.mem_append] at hb
    rcases hb with hb | hb
    · exact utf8Char_ne_zero (h c (List.mem_cons_self c cs)) b hb
    · exact ih (fun x hx => h x (List.mem_cons_of_mem c hx)) b hb

theorem headerBoundary_of_no_zero (l : List Nat) (h : ∀ b ∈ l, b ≠ 0) :
    headerBoundary l = none := by
  induction l with
  | nil => rfl
  | cons b r ih =>
    simp only [headerBoundary]
    rw [if_neg (h b (List.mem_cons_self b r)), ih (fun x hx => h x (List.mem_cons_of_mem b hx))]
    rfl

theorem headerBoundary_marker (h rest : List Nat) (hz : ∀ b ∈ h, b ≠ 0) :
    headerBoundary (h ++ 0 :: rest) = some h.length := by
  induction h with
  | nil => simp [headerBoundary]
  | cons b r ih =>
    have hstep : headerBoundary ((b :: r) ++ 0 :: rest)
        = (headerBoundary (r ++ 0 :: rest)).map (· + 1) := by
      simp only [List.cons_append, headerBoundary]
      rw [if_neg (hz b (List.mem_cons_self b r))]
      rfl
    rw [hstep, ih (fun x hx => hz x (List.mem_cons_of_mem b hx))]
    rfl

theorem packBitsAux_fuel (f1 : Nat) : ∀ (f2 : Nat) (l : List Bool),
    l.length ≤ f1 → l.length ≤ f2 → packBitsAux f1 l = packBitsAux f2 l := by
  induction f1 with
  | zero =>
    intro f2 l h1 _
    have : l = [] := List.eq_nil_of_length_eq_zero (Nat.le_zero.mp h1)
    subst this
    cases f2 <;> rfl
  | succ g ih =>
    intro f2 l h1 h2
    cases l with
    | nil => cases f2 <;> rfl
    | cons x xs =>
      cases f2 with
      | zero => simp at h2
      | succ h =>
        simp only [packBitsAux]
        congr 1
        refine ih h ((x :: xs).drop 8) ?_ ?_ <;>
          · simp only [List.length_drop, List.length_cons]
            simp only [List.length_cons] at h1 h2
            omega

theorem packBits_marker (l : List Bool) :
    packBits (List.replicate 8 false ++ l) = 0 :: packBits l := by
  unfold packBits
  have h1 : (List.replicate 8 false ++ l).length = l.length + 8 := by
    rw [List.length_append, List.length_replicate]; omega
  rw [h1]
  have h2 : List.replicate 8 false ++ l
      = false :: false :: false :: false :: false :: false :: false :: false :: l := rfl
  rw [h2]
  have h3 : packBitsAux (l.length + 8)
      (false :: false :: false :: false :: false :: false :: false :: false :: l)
      = byteOfBits (padTo8 ((false :: false :: false :: false :: false :: false :: false ::
          false :: l).take 8)) ::
        packBitsAux (l.length + 7)
          ((false :: false :: false :: false :: false :: false :: false :: false :: l).drop 8) :=
    rfl
  rw [h3]
  have h4 : (false :: false :: false :: false :: false :: false :: false :: false :: l).take 8
      = List.replicate 8 false := by simp [List.take]
  have h5 : (false :: false :: false :: false :: false :: false :: false :: false :: l).drop 8
      = l := rfl
  rw [h4, h5]
  have h6 : byteOfBits (padTo8 (List.replicate 8 false)) = 0 := by decide
  rw [h6]
  congr 1
  exact packBitsAux_fuel _ _ _ (by omega) (le_refl _)

/-- Claim C3 as amended: the format delimits the header by the null marker
byte and parsing finds the boundary by scanning, but for every container the
code serializes the scan recovers exactly the end of the serialized frequency
table, because the UTF-8 bytes of `repr(character_map)` never include a zero
byte and the marker byte follows them immediately (zero bytes inside the
packed payload lie beyond the marker and are never reached). -/
theorem c3_header_boundary_amended (character_map : List (Char × Nat)) (string : String) :
    headerBoundary (save_to_file string character_map) =
      some (utf8Encode (pyDictRepr character_map)).length := by
  unfold save_to_file
  rw [packBits_marker]
  exact headerBoundary_marker _ _
    (utf8Encode_ne_zero _ (pyDictRepr_toNat_ne_zero character_map))

/-- Claim C7 as amended: truncating a container strictly before the null
marker byte leaves a buffer with no zero byte, so the header scan fails and
`decompress_from_file` raises `ValueError` (not a `CorruptHeaderError`, which
does not exist in the code); `c7_truncation_counterexample` shows truncations
at or past the marker instead decode silently. -/
theorem c7_truncated_header_amended (character_map : List (Char × Nat)) (string : String)
    (k : Nat) (hk : k ≤ (utf8Encode (pyDictRepr character_map)).length) :
    decompress_from_file ((save_to_file string character_map).take k) =
      .error .valueError := by
  have htake : (save_to_file string character_map).take k
      = (utf8Encode (pyDictRepr character_map)).take k := by
    unfold save_to_file
    exact List.take_append_of_le_length hk
  have hz : ∀ b ∈ (utf8Encode (pyDictRepr character_map)).take k, b ≠ 0 :=
    fun b hb => utf8Encode_ne_zero _ (pyDictRepr_toNat_ne_zero character_map) b
      (List.take_subset _ _ hb)
  unfold decompress_from_file
  rw [htake, headerBoundary_of_no_zero _ hz]

/-- Witness for `c7_truncated_header_amended` at a concrete container: the
`"ab"` container truncated to its first five bytes. -/
theorem c7_truncated_header_witness :
    decompress_from_file ((save_to_file "01" [('a', 1), ('b', 1)]).take 5) =
      .error .valueError :=
  c7_truncated_header_amended [('a', 1), ('b', 1)] "01" 5 (by decide)

/-! ### The decode loop silently drops a trailing unmatched pattern -/

theorem decodeLoop_append (sw : List (String × Char)) (xs ys : List Char) :
    ∀ (o p : String), decodeLoop sw (xs ++ ys) o p =
      decodeLoop sw ys (decodeLoop sw xs o p).1 (decodeLoop sw xs o p).2 := by
  induction xs with
  | nil => intro o p; rfl
  | cons x xs ih =>
    intro o p
    simp only [List.cons_append, decodeLoop]
    cases alookup sw (p.push x) with
    | some ch => exact ih _ _
    | none => exact ih _ _

theorem decodeLoop_no_match (sw : List (String × Char)) (ys : List Char) :
    ∀ (o q : String),
      (∀ j < ys.length, alookup sw (String.mk (q.data ++ ys.take (j + 1))) = none) →
      decodeLoop sw ys o q = (o, String.mk (q.data ++ ys)) := by
  induction ys with
  | nil =>
    intro o q _
    simp only [decodeLoop, List.append_nil]
  | cons y ys ih =>
    intro o q h
    have hpush : q.push y = String.mk (q.data ++ [y]) := rfl
    have h0 : alookup sw (q.push y) = none := by
      rw [hpush]
      have := h 0 (by simp)
      simpa using this
    have hstep : decodeLoop sw (y :: ys) o q = decodeLoop sw ys o (q.push y) := by
      simp only [decodeLoop, h0]
    rw [hstep, hpush]
    have hrec := ih o (String.mk (q.data ++ [y])) ?_
    · rw [hrec]
      simp
    · intro j hj
      have hh := h (j + 1) (by simp; omega)
      simpa [List.append_assoc] using hh

/-- Claim C6 as amended: the decode loop reports no error; trailing bits that
cannot complete a code are silently dropped.  If decoding `s` ends with an
empty pattern and no accumulated pattern of the trailing bits `t` matches a
code, then decoding `s ++ t` returns exactly the decode of `s`, with `t`
discarded. -/
theorem c6_leftover_discarded_amended (encoding : List (Char × String)) (s t : String)
    (h1 : (decodeLoop (pySwapDict encoding) s.data "" "").2 = "")
    (h2 : ∀ j < t.data.length,
      alookup (pySwapDict encoding) (String.mk (t.data.take (j + 1))) = none) :
    decode_string_with_schema (s ++ t) encoding = decode_string_with_schema s encoding := by
  unfold decode_string_with_schema
  have hdata : (s ++ t).data = s.data ++ t.data := String.data_append s t
  rw [hdata, decodeLoop_append, h1]
  have := decodeLoop_no_match (pySwapDict encoding) t.data
    (decodeLoop (pySwapDict encoding) s.data "" "").1 "" ?_
  · rw [this]
  · intro j hj
    have h := h2 j hj
    simpa using h

/-- Witness for `c6_leftover_discarded_amended`: against the table `a = "0"`,
`b = "10"`, `c = "11"`, appending the dangling bit `"1"` to the bitstream
`"0"` leaves the decoded output unchanged. -/
theorem c6_leftover_discarded_witness :
    decode_string_with_schema ("0" ++ "1") [('a', "0"), ('b', "10"), ('c', "11")] =
      decode_string_with_schema "0" [('a', "0"), ('b', "10"), ('c', "11")] :=
  c6_leftover_discarded_amended [('a', "0"), ('b', "10"), ('c', "11")] "0" "1"
    (by decide) (by decide)

/-! ### Encoding is concatenation-preserving and its length is frequency-weighted -/

theorem join_foldl (l : List String) : ∀ init : String,
    l.foldl (fun r s => r ++ s) init = init ++ String.join l := by
  induction l with
  | nil => intro init; simp [String.join, String.append_empty]
  | cons x xs ih =>
    intro init
    have hx : String.join (x :: xs) = x ++ String.join xs := by
      simp only [String.join, List.foldl_cons]
      rw [ih ("" ++ x), String.empty_append]
      rfl
    simp only [List.foldl_cons]
    rw [ih (init ++ x), hx, String.append_assoc]

theorem join_append (a b : List String) :
    String.join (a ++ b) = String.join a ++ String.join b := by
  simp only [String.join, List.foldl_append]
  rw [join_foldl b (List.foldl (fun r s => r ++ s) "" a)]
  rfl

theorem join_length (l : List String) :
    (String.join l).length = (l.map String.length).sum := by
  induction l with
  | nil => rfl
  | cons x xs ih =>
    have hx : String.join (x :: xs) = x ++ String.join xs := by
      simp only [String.join, List.foldl_cons]
      rw [join_foldl xs ("" ++ x), String.empty_append]
      rfl
    rw [hx, String.length_append, List.map_cons, List.sum_cons, ih]

theorem encodeChars_eq (enc : List (Char × String)) (cs : List Char)
    (h : ∀ c ∈ cs, (alookup enc c).isSome) :
    encodeChars enc cs = .ok (cs.map (fun c => (alookup enc c).getD "")) := by
  induction cs with
  | nil => rfl
  | cons c cs ih =>
    have hc := h c (List.mem_cons_self c cs)
    obtain ⟨code, hcode⟩ := Option.isSome_iff_exists.mp hc
    simp only [encodeChars, hcode]
    rw [ih (fun x hx => h x (List.mem_cons_of_mem c hx))]
    simp [Except.map, hcode]

theorem alookup_eq_none {α β : Type} [DecidableEq α] (m : List (α × β)) (a : α) :
    alookup m a = none ↔ a ∉ m.map Prod.fst := by
  induction m with
  | nil => simp [alookup]
  | cons p r ih =>
    simp only [alookup, List.map_cons, List.mem_cons]
    by_cases h : p.1 = a
    · rw [if_pos h]
      constructor
      · intro hh; exact absurd hh (Option.some_ne_none _)
      · intro hh; exact absurd (Or.inl h.symm) hh
    · rw [if_neg h, ih]
      constructor
      · intro hh hmem
        rcases hmem with hmem | hmem
        · exact h hmem.symm
        · exact hh hmem
      · intro hh hmem
        exact hh (Or.inr hmem)

theorem map_update_id {β : Type} (m : List (Char × β)) (c : Char)
    (g : Char × β → Char × β) (h : c ∉ m.map Prod.fst) :
    m.map (fun p => if p.1 = c then g p else p) = m := by
  induction m with
  | nil => rfl
  | cons p r ih =>
    simp only [List.map_cons, List.mem_cons] at h ⊢
    rw [if_neg (fun hh => h (Or.inl hh.symm)), ih (fun hh => h (Or.inr hh))]

theorem sum_bump (f : Char → Nat) (c : Char) (m : List (Char × Nat))
    (hnd : (m.map Prod.fst).Nodup) (hin : (alookup m c).isSome) :
    ((m.map (fun p => if p.1 = c then (p.1, p.2 + 1) else p)).map
      (fun p => p.2 * f p.1)).sum = (m.map (fun p => p.2 * f p.1)).sum + f c := by
  induction m with
  | nil => simp [alookup] at hin
  | cons p r ih =>
    simp only [List.map_cons, List.nodup_cons] at hnd
    by_cases h : p.1 = c
    · rw [List.map_cons, if_pos h]
      have hrest : r.map (fun p => if p.1 = c then (p.1, p.2 + 1) else p) = r :=
        map_update_id r c _ (h ▸ hnd.1)
      rw [hrest]
      simp only [List.map_cons, List.sum_cons]
      rw [h]
      ring
    · rw [List.map_cons, if_neg h]
      have hin' : (alookup r c).isSome := by
        simpa [alookup, h] using hin
      simp only [List.map_cons, List.sum_cons]
      rw [ih hnd.2 hin']
      omega

theorem freq_keys (m : List (Char × Nat)) (c : Char) :
    (pyDictIncr m c).map Prod.fst =
      if (alookup m c).isSome then m.map Prod.fst else m.map Prod.fst ++ [c] := by
  unfold pyDictIncr
  split_ifs with h
  · rw [List.map_map]
    congr 1
    funext p
    by_cases hp : p.1 = c <;> simp [hp]
  · simp

theorem freq_keys_nodup (cs : List Char) : ∀ (acc : List (Char × Nat)),
    (acc.map Prod.fst).Nodup → ((cs.foldl pyDictIncr acc).map Prod.fst).Nodup := by
  induction cs with
  | nil => intro acc h; exact h
  | cons c cs ih =>
    intro acc h
    rw [List.foldl_cons]
    refine ih (pyDictIncr acc c) ?_
    rw [freq_keys]
    split_ifs with hc
    · exact h
    · rw [List.nodup_append]
      refine ⟨h, List.nodup_singleton c, ?_⟩
      intro x hx hxc
      rw [List.mem_singleton] at hxc
      subst hxc
      rw [Option.not_isSome_iff_eq_none] at hc
      exact (alookup_eq_none acc x).mp hc hx

theorem freq_sum (f : Char → Nat) (cs : List Char) : ∀ (acc : List (Char × Nat)),
    (acc.map Prod.fst).Nodup →
    ((cs.foldl pyDictIncr acc).map (fun p => p.2 * f p.1)).sum
      = (acc.map (fun p => p.2 * f p.1)).sum + (cs.map f).sum := by
  induction cs with
  | nil => intro acc _; simp
  | cons c cs ih =>
    intro acc hnd
    rw [List.foldl_cons]
    have hnd' : ((pyDictIncr acc c).map Prod.fst).Nodup := by
      rw [freq_keys]
      split_ifs with hc
      · exact hnd
      · rw [List.nodup_append]
        refine ⟨hnd, List.nodup_singleton c, ?_⟩
        intro x hx hxc
        rw [List.mem_singleton] at hxc
        subst hxc
        rw [Option.not_isSome_iff_eq_none] at hc
        exact (alookup_eq_none acc x).mp hc hx
    rw [ih (pyDictIncr acc c) hnd']
    have hstep : ((pyDictIncr acc c).map (fun p => p.2 * f p.1)).sum
        = (acc.map (fun p => p.2 * f p.1)).sum + f c := by
      unfold pyDictIncr
      split_ifs with hc
      · exact sum_bump f c acc hnd hc
      · simp
    rw [hstep]
    simp only [List.map_cons, List.sum_cons]
    omega

/-- Claim C10: `encode_string_with_schema` is concatenation-preserving on
strings whose characters all have codes, and the length of an encoded string
is the sum, over the entries of its frequency map, of the count times the
code length. -/
theorem c10_encode_concat_and_length (encoding : List (Char × String)) (s1 s2 s : String)
    (h1 : ∀ c ∈ s1.data, (alookup encoding c).isSome)
    (h2 : ∀ c ∈ s2.data, (alookup encoding c).isSome)
    (hs : ∀ c ∈ s.data, (alookup encoding c).isSome) :
    (∃ o1 o2, encode_string_with_schema s1 encoding = .ok o1 ∧
      encode_string_with_schema s2 encoding = .ok o2 ∧
      encode_string_with_schema (s1 ++ s2) encoding = .ok (o1 ++ o2)) ∧
    (∀ o, encode_string_with_schema s encoding = .ok o →
      o.length = ((generate_frequency_map s).map
        (fun p => p.2 * ((alookup encoding p.1).getD "").length)).sum) := by
  constructor
  · refine ⟨String.join (s1.data.map (fun c => (alookup encoding c).getD "")),
      String.join (s2.data.map (fun c => (alookup encoding c).getD "")), ?_, ?_, ?_⟩
    · unfold encode_string_with_schema
      rw [encodeChars_eq encoding s1.data h1]
      rfl
    · unfold encode_string_with_schema
      rw [encodeChars_eq encoding s2.data h2]
      rfl
    · unfold encode_string_with_schema
      have hd : (s1 ++ s2).data = s1.data ++ s2.data := String.data_append s1 s2
      have hall : ∀ c ∈ (s1 ++ s2).data, (alookup encoding c).isSome := by
        intro c hc
        rw [hd, List.mem_append] at hc
        rcases hc with hc | hc
        · exact h1 c hc
        · exact h2 c hc
      rw [encodeChars_eq encoding _ hall, hd, List.map_append]
      simp only [Except.map]
      rw [join_append]
  · intro o ho
    unfold encode_string_with_schema at ho
    rw [encodeChars_eq encoding s.data hs] at ho
    have ho' : o = String.join (s.data.map (fun c => (alookup encoding c).getD "")) := by
      cases ho
      rfl
    rw [ho', join_length, List.map_map]
    unfold generate_frequency_map
    rw [freq_sum (fun c => ((alookup encoding c).getD "").length) s.data [] (by simp)]
    simp only [List.map_nil, List.sum_nil, Nat.zero_add]
    rfl

/-- Witness for `c10_encode_concat_and_length` with the table `a = "0"`,
`b = "1"` and the strings `"ab"`, `"ba"`, `"aab"`. -/
theorem c10_encode_concat_and_length_witness :
    ((∃ o1 o2, encode_string_with_schema "ab" [('a', "0"), ('b', "1")] = .ok o1 ∧
      encode_string_with_schema "ba" [('a', "0"), ('b', "1")] = .ok o2 ∧
      encode_string_with_schema ("ab" ++ "ba") [('a', "0"), ('b', "1")] = .ok (o1 ++ o2)) ∧
    (∀ o, encode_string_with_schema "aab" [('a', "0"), ('b', "1")] = .ok o →
      o.length = ((generate_frequency_map "aab").map
        (fun p => p.2 * ((alookup [('a', "0"), ('b', "1")] p.1).getD "").length)).sum)) :=
  c10_encode_concat_and_length [('a', "0"), ('b', "1")] "ab" "ba" "aab"
    (by decide) (by decide) (by decide)

/-! ### Stable sorting by weight is unique, so compression is deterministic -/

/-- The sort key a (position, node) pair is ordered by. -/
def pairKey (x : Nat × Node) : Nat × Nat := (x.2.value, x.1)

theorem nodeLexLe_refl (a : Nat × Node) : nodeLexLe a a := Or.inr ⟨rfl, le_refl _⟩

theorem nodeLexLe_antisymm {a b : Nat × Node} (h1 : nodeLexLe a b) (h2 : nodeLexLe b a) :
    pairKey a = pairKey b := by
  unfold nodeLexLe at h1 h2
  unfold pairKey
  rcases h1 with h1 | ⟨h1, h1'⟩ <;> rcases h2 with h2 | ⟨h2, h2'⟩ <;>
    simp only [Prod.mk.injEq] <;> omega

instance : IsTotal (Nat × Node) nodeLexLe :=
  ⟨by intro a b; unfold nodeLexLe; omega⟩

instance : IsTrans (Nat × Node) nodeLexLe :=
  ⟨by intro a b c hab hbc; unfold nodeLexLe at hab hbc ⊢; omega⟩

/-- A sorted permutation with pairwise-distinct sort keys is unique. -/
theorem stable_sorted_unique : ∀ (l1 l2 : List (Nat × Node)),
    l1.Perm l2 → List.Sorted nodeLexLe l1 → List.Sorted nodeLexLe l2 →
    (l1.map pairKey).Nodup → l1 = l2 := by
  intro l1
  induction l1 with
  | nil =>
    intro l2 hp _ _ _
    exact (hp.symm.eq_nil).symm
  | cons a t1 ih =>
    intro l2 hp hs1 hs2 hnd
    cases l2 with
    | nil => exact absurd hp.eq_nil (by simp)
    | cons b t2 =>
      rw [List.sorted_cons] at hs1 hs2
      have hab : nodeLexLe a b := by
        have hbmem : b ∈ a :: t1 := hp.symm.subset (List.mem_cons_self b t2)
        rcases List.mem_cons.mp hbmem with hba | hbt
        · exact hba ▸ nodeLexLe_refl a
        · exact hs1.1 b hbt
      have hba : nodeLexLe b a := by
        have hamem : a ∈ b :: t2 := hp.subset (List.mem_cons_self a t1)
        rcases List.mem_cons.mp hamem with hab' | hat
        · exact hab' ▸ nodeLexLe_refl b
        · exact hs2.1 a hat
      have hkey : pairKey a = pairKey b := nodeLexLe_antisymm hab hba
      have heq : a = b := by
        by_contra hne
        have hbt : b ∈ t1 := by
          have := hp.symm.subset (List.mem_cons_self b t2)
          rcases List.mem_cons.mp this with h | h
          · exact absurd h.symm hne
          · exact h
        have : pairKey b ∈ t1.map pairKey := List.mem_map_of_mem pairKey hbt
        rw [List.map_cons, List.nodup_cons] at hnd
        exact hnd.1 (hkey ▸ this)
      subst heq
      have htp : t1.Perm t2 := hp.cons_inv
      rw [List.map_cons, List.nodup_cons] at hnd
      rw [ih t2 htp hs1.2 hs2.2 hnd.2]

/-- Two stable sorts by value agree on every list. -/
theorem stableSort_unique (f g : List Node → List Node)
    (hf : StableSortByValue f) (hg : StableSortByValue g) (l : List Node) : f l = g l := by
  obtain ⟨lf, hpf, hsf, hef⟩ := hf l
  obtain ⟨lg, hpg, hsg, heg⟩ := hg l
  have hnd : (lf.map pairKey).Nodup := by
    have hen : ((l.enum.map pairKey).map Prod.snd) = l.enum.map Prod.fst := by
      rw [List.map_map]
      rfl
    have hnd0 : (l.enum.map pairKey).Nodup := by
      refine List.Nodup.of_map Prod.snd ?_
      rw [hen, List.enum_map_fst]
      exact List.nodup_range l.length
    exact ((hpf.map pairKey).nodup_iff).mpr hnd0
  rw [hef, heg, stable_sorted_unique lf lg (hpf.trans hpg.symm) hsf hsg hnd]

/-- `pySortByValue` is a stable sort by value. -/
theorem pySortByValue_stable : StableSortByValue pySortByValue := fun l =>
  ⟨List.insertionSort nodeLexLe l.enum, List.perm_insertionSort _ _,
    List.sorted_insertionSort _ _, rfl⟩

theorem constructLoopWith_congr (f g : List Node → List Node) (h : ∀ l, f l = g l) :
    ∀ (fuel : Nat) (l : List Node),
      constructLoopWith f fuel l = constructLoopWith g fuel l := by
  intro fuel
  induction fuel with
  | zero =>
    intro l
    cases l with
    | nil => rfl
    | cons x xs => cases xs <;> rfl
  | succ n ih =>
    intro l
    cases l with
    | nil => rfl
    | cons x xs =>
      cases xs with
      | nil => rfl
      | cons y ys =>
        simp only [constructLoopWith]
        rw [h]
        cases g (x :: y :: ys) with
        | nil => rfl
        | cons a tl =>
          cases tl with
          | nil => rfl
          | cons b rest => exact ih _

/-- Claim C8: the compression pipeline is deterministic.  The only
implementation freedom in the pipeline is the interpreter's stable sort
inside the tree-construction loop; any two stable sorts by weight produce the
same sorted list (stability makes the result unique), hence identical trees,
schemas, encoded strings and container bytes on every input, across runs and
platforms. -/
theorem c8_compress_deterministic (f g : List Node → List Node)
    (hf : StableSortByValue f) (hg : StableSortByValue g) (s : String) :
    compressBytesWith f s = compressBytesWith g s := by
  have hfg : ∀ l, f l = g l := stableSort_unique f g hf hg
  unfold compressBytesWith huffman_encodeWith construct_treeWith
  simp only [constructLoopWith_congr f g hfg]

/-- Witness for `c8_compress_deterministic` at the input `"aabbbc"`. -/
theorem c8_compress_deterministic_witness :
    compressBytesWith pySortByValue "aabbbc" = compressBytesWith pySortByValue "aabbbc" :=
  c8_compress_deterministic pySortByValue pySortByValue
    pySortByValue_stable pySortByValue_stable "aabbbc"

/-! ### The code table is the set of root-to-leaf paths and is prefix-free -/

/-- The characters held at the leaves of a tree, left to right. -/
def leafChars : Node → List Char
  | .leaf _ c => [c]
  | .internal _ l r => leafChars l ++ leafChars r

/-- The root-to-leaf paths of a tree paired with the leaf characters, `'0'`
for a step to the left child and `'1'` for a step to the right child — the
path language the design document describes for the code table. -/
def pathsWithChars : Node → List (Char × List Char)
  | .leaf _ c => [(c, [])]
  | .internal _ l r =>
      (pathsWithChars l).map (fun p => (p.1, '0' :: p.2)) ++
      (pathsWithChars r).map (fun p => (p.1, '1' :: p.2))

theorem pathsWithChars_map_fst (t : Node) :
    (pathsWithChars t).map Prod.fst = leafChars t := by
  induction t with
  | leaf v c => rfl
  | internal v l r ihl ihr =>
    simp only [pathsWithChars, leafChars, List.map_append, List.map_map]
    rw [show (Prod.fst ∘ fun p : Char × List Char => (p.1, '0' :: p.2)) = Prod.fst from rfl]
    rw [show (Prod.fst ∘ fun p : Char × List Char => (p.1, '1' :: p.2)) = Prod.fst from rfl]
    rw [ihl, ihr]

theorem pyDictUnion_disjoint (a b : List (Char × String))
    (hab : ∀ p ∈ a, alookup b p.1 = none) (hba : ∀ p ∈ b, alookup a p.1 = none) :
    pyDictUnion a b = a ++ b := by
  unfold pyDictUnion
  congr 1
  · rw [List.map_congr_left (fun p hp => by rw [hab p hp])]
    exact List.map_id a
  · rw [List.filter_eq_self.mpr]
    intro p hp
    rw [hba p hp]
    rfl

theorem get_schema_eq_paths (t : Node) (hnd : (leafChars t).Nodup) : ∀ pat : String,
    t.get_schema pat =
      (pathsWithChars t).map (fun p => (p.1, String.mk (pat.data ++ p.2))) := by
  induction t with
  | leaf v c =>
    intro pat
    simp [Node.get_schema, pathsWithChars]
  | internal v l r ihl ihr =>
    intro pat
    simp only [leafChars, List.nodup_append] at hnd
    obtain ⟨hndl, hndr, hdisj⟩ := hnd
    have hl := ihl hndl (pat ++ "0")
    have hr := ihr hndr (pat ++ "1")
    have hkeysl : (l.get_schema (pat ++ "0")).map Prod.fst = leafChars l := by
      rw [hl, List.map_map]
      rw [show (Prod.fst ∘ fun p : Char × List Char =>
        (p.1, String.mk ((pat ++ "0").data ++ p.2))) = Prod.fst from rfl]
      exact pathsWithChars_map_fst l
    have hkeysr : (r.get_schema (pat ++ "1")).map Prod.fst = leafChars r := by
      rw [hr, List.map_map]
      rw [show (Prod.fst ∘ fun p : Char × List Char =>
        (p.1, String.mk ((pat ++ "1").data ++ p.2))) = Prod.fst from rfl]
      exact pathsWithChars_map_fst r
    have hdisj1 : ∀ p ∈ l.get_schema (pat ++ "0"),
        alookup (r.get_schema (pat ++ "1")) p.1 = none := by
      intro p hp
      rw [alookup_eq_none, hkeysr]
      intro hmem
      exact hdisj (hkeysl ▸ List.mem_map_of_mem Prod.fst hp) hmem
    have hdisj2 : ∀ p ∈ r.get_schema (pat ++ "1"),
        alookup (l.get_schema (pat ++ "0")) p.1 = none := by
      intro p hp
      rw [alookup_eq_none, hkeysl]
      intro hmem
      exact hdisj hmem (hkeysr ▸ List.mem_map_of_mem Prod.fst hp)
    show pyDictUnion (l.get_schema (pat ++ "0")) (r.get_schema (pat ++ "1")) = _
    rw [pyDictUnion_disjoint _ _ hdisj1 hdisj2, hl, hr]
    simp only [pathsWithChars, List.map_append, List.map_map]
    congr 1
    · refine List.map_congr_left ?_
      intro p _
      simp only [Function.comp_apply]
      congr 1
      rw [String.data_append]
      simp
    · refine List.map_congr_left ?_
      intro p _
      simp only [Function.comp_apply]
      congr 1
      rw [String.data_append]
      simp

/-- Neither path extends the other. -/
def noMutualExtension (a b : Char × List Char) : Prop :=
  (¬∃ u, a.2 ++ u = b.2) ∧ (¬∃ u, b.2 ++ u = a.2)

theorem noMutualExtension_symm : Symmetric noMutualExtension := by
  intro a b h
  exact ⟨h.2, h.1⟩

theorem noMutualExtension_cons (c : Char) {a b : Char × List Char}
    (h : noMutualExtension a b) :
    noMutualExtension (a.1, c :: a.2) (b.1, c :: b.2) := by
  constructor
  · rintro ⟨u, hu⟩
    rw [List.cons_append, List.cons.injEq] at hu
    exact h.1 ⟨u, hu.2⟩
  · rintro ⟨u, hu⟩
    rw [List.cons_append, List.cons.injEq] at hu
    exact h.2 ⟨u, hu.2⟩

theorem paths_pairwise (t : Node) :
    List.Pairwise noMutualExtension (pathsWithChars t) := by
  induction t with
  | leaf v c => simp [pathsWithChars]
  | internal v l r ihl ihr =>
    simp only [pathsWithChars]
    rw [List.pairwise_append]
    refine ⟨?_, ?_, ?_⟩
    · rw [List.pairwise_map]
      exact ihl.imp (fun h => noMutualExtension_cons '0' h)
    · rw [List.pairwise_map]
      exact ihr.imp (fun h => noMutualExtension_cons '1' h)
    · intro a ha b hb
      obtain ⟨a', _, rfl⟩ := List.mem_map.mp ha
      obtain ⟨b', _, rfl⟩ := List.mem_map.mp hb
      constructor
      · rintro ⟨u, hu⟩
        rw [List.cons_append, List.cons.injEq] at hu
        exact absurd hu.1 (by decide)
      · rintro ⟨u, hu⟩
        rw [List.cons_append, List.cons.injEq] at hu
        exact absurd hu.1 (by decide)

/-- All leaf characters of a list of trees. -/
def allLeafChars (l : List Node) : List Char := (l.map leafChars).flatten

theorem pySortByValue_perm (l : List Node) : (pySortByValue l).Perm l := by
  have h := (List.perm_insertionSort nodeLexLe l.enum).map Prod.snd
  rw [List.enum_map_snd] at h
  exact h

theorem loop_allLeafChars (fuel : Nat) : ∀ l : List Node,
    (allLeafChars (constructLoopWith pySortByValue fuel l)).Perm (allLeafChars l) := by
  induction fuel with
  | zero =>
    intro l
    cases l with
    | nil => exact List.Perm.refl _
    | cons x xs => cases xs <;> exact List.Perm.refl _
  | succ n ih =>
    intro l
    cases l with
    | nil => exact List.Perm.refl _
    | cons x xs =>
      cases xs with
      | nil => exact List.Perm.refl _
      | cons y ys =>
        have hsortp : (pySortByValue (x :: y :: ys)).Perm (x :: y :: ys) :=
          pySortByValue_perm _
        simp only [constructLoopWith]
        cases hs : pySortByValue (x :: y :: ys) with
        | nil =>
          rw [hs] at hsortp
          exact (hsortp.map leafChars).flatten
        | cons a tl =>
          cases tl with
          | nil =>
            rw [hs] at hsortp
            exact (hsortp.map leafChars).flatten
          | cons b rest =>
            rw [hs] at hsortp
            have h1 := ih (rest ++ [Node.internal (a.value + b.value) a b])
            have h2 : allLeafChars (rest ++ [Node.internal (a.value + b.value) a b])
                = allLeafChars rest ++ (leafChars a ++ leafChars b) := by
              simp [allLeafChars, leafChars]
            have h3 : allLeafChars (a :: b :: rest)
                = (leafChars a ++ leafChars b) ++ allLeafChars rest := by
              simp [allLeafChars]
            have h4 : (allLeafChars (rest ++ [Node.internal (a.value + b.value) a b])).Perm
                (allLeafChars (a :: b :: rest)) := by
              rw [h2, h3]
              exact List.perm_append_comm
            exact (h1.trans h4).trans ((hsortp.map leafChars).flatten)

theorem loop_singleton (fuel : Nat) : ∀ l : List Node, l ≠ [] → l.length ≤ fuel + 1 →
    ∃ x, constructLoopWith pySortByValue fuel l = [x] := by
  induction fuel with
  | zero =>
    intro l hne hlen
    cases l with
    | nil => exact absurd rfl hne
    | cons x xs =>
      cases xs with
      | nil => exact ⟨x, rfl⟩
      | cons y ys => simp at hlen
  | succ n ih =>
    intro l hne hlen
    cases l with
    | nil => exact absurd rfl hne
    | cons x xs =>
      cases xs with
      | nil => exact ⟨x, rfl⟩
      | cons y ys =>
        have hslen : (pySortByValue (x :: y :: ys)).length = (x :: y :: ys).length :=
          (pySortByValue_perm _).length_eq
        simp only [constructLoopWith]
        cases hs : pySortByValue (x :: y :: ys) with
        | nil => rw [hs] at hslen; simp at hslen
        | cons a tl =>
          cases tl with
          | nil => rw [hs] at hslen; simp at hslen
          | cons b rest =>
            refine ih (rest ++ [Node.internal (a.value + b.value) a b]) (by simp) ?_
            rw [hs] at hslen
            simp only [List.length_cons, List.length_append, List.length_nil,
              List.length_singleton] at hslen hlen ⊢
            omega

theorem allLeafChars_leaves (m : List (Char × Nat)) :
    allLeafChars (m.map fun p => Node.leaf p.2 p.1) = m.map Prod.fst := by
  induction m with
  | nil => rfl
  | cons p r ihm =>
    simp only [List.map_cons, allLeafChars, List.flatten_cons] at ihm ⊢
    rw [ihm]
    rfl

theorem construct_tree_leafChars (m : List (Char × Nat)) (t : Node)
    (ht : construct_tree m = .ok t) : (leafChars t).Perm (m.map Prod.fst) := by
  unfold construct_tree construct_treeWith at ht
  by_cases hm : m = []
  · subst hm
    simp [constructLoopWith] at ht
  · obtain ⟨x, hx⟩ := loop_singleton m.length (m.map fun p => Node.leaf p.2 p.1)
      (by simpa using hm) (by simp)
    rw [hx] at ht
    have hxt : x = t := by
      cases ht
      rfl
    subst hxt
    have hperm := loop_allLeafChars m.length (m.map fun p => Node.leaf p.2 p.1)
    rw [hx] at hperm
    have h1 : allLeafChars [x] = leafChars x := by simp [allLeafChars]
    have h2 : allLeafChars (m.map fun p => Node.leaf p.2 p.1) = m.map Prod.fst :=
      allLeafChars_leaves m
    rw [h1, h2] at hperm
    exact hperm

/-- Claim C9: the code table assigns a code to exactly the symbols of the
frequency map — its key list is a permutation of the map's key list. -/
theorem c9_schema_domain (m : List (Char × Nat)) (t : Node)
    (hnd : (m.map Prod.fst).Nodup) (ht : construct_tree m = .ok t) :
    ((t.get_schema "").map Prod.fst).Perm (m.map Prod.fst) := by
  have hlc : (leafChars t).Perm (m.map Prod.fst) := construct_tree_leafChars m t ht
  have hndt : (leafChars t).Nodup := (hlc.nodup_iff).mpr hnd
  rw [get_schema_eq_paths t hndt "", List.map_map]
  rw [show (Prod.fst ∘ fun p : Char × List Char =>
    (p.1, String.mk (("" : String).data ++ p.2))) = Prod.fst from rfl]
  rw [pathsWithChars_map_fst]
  exact hlc

/-- Witness for `c9_schema_domain` on the map `\x7b'a': 2, 'b': 1\x7d`. -/
theorem c9_schema_domain_witness :
    (((Node.internal 3 (Node.leaf 1 'b') (Node.leaf 2 'a')).get_schema "").map
      Prod.fst).Perm ([('a', 2), ('b', 1)].map Prod.fst) :=
  c9_schema_domain [('a', 2), ('b', 1)] (Node.internal 3 (Node.leaf 1 'b') (Node.leaf 2 'a'))
    (by decide) rfl

/-- Claim C4: the generated code table is prefix-free (no entry's code is a
proper or improper prefix of a different entry's code), and the codes are
exactly the root-to-leaf paths of the tree, `0` for left and `1` for
right. -/
theorem c4_prefix_free_and_paths (m : List (Char × Nat)) (t : Node)
    (hnd : (m.map Prod.fst).Nodup) (ht : construct_tree m = .ok t) :
    (∀ p1 ∈ t.get_schema "", ∀ p2 ∈ t.get_schema "", p1.2 ≠ p2.2 →
      ¬∃ u, p1.2.data ++ u = p2.2.data) ∧
    (t.get_schema "").map (fun p => p.2.data) = (pathsWithChars t).map Prod.snd := by
  have hlc : (leafChars t).Perm (m.map Prod.fst) := construct_tree_leafChars m t ht
  have hndt : (leafChars t).Nodup := (hlc.nodup_iff).mpr hnd
  have hschema := get_schema_eq_paths t hndt ""
  constructor
  · intro p1 hp1 p2 hp2 hne
    rw [hschema] at hp1 hp2
    obtain ⟨q1, hq1, rfl⟩ := List.mem_map.mp hp1
    obtain ⟨q2, hq2, rfl⟩ := List.mem_map.mp hp2
    have hqne : q1 ≠ q2 := by
      intro h
      exact hne (by rw [h])
    have hR := (paths_pairwise t).forall noMutualExtension_symm hq1 hq2 hqne
    exact hR.1
  · rw [hschema, List.map_map]
    rfl

/-- Witness for `c4_prefix_free_and_paths` on the map `\x7b'a': 2, 'b': 1\x7d`. -/
theorem c4_prefix_free_and_paths_witness :
    (∀ p1 ∈ (Node.internal 3 (Node.leaf 1 'b') (Node.leaf 2 'a')).get_schema "",
      ∀ p2 ∈ (Node.internal 3 (Node.leaf 1 'b') (Node.leaf 2 'a')).get_schema "",
      p1.2 ≠ p2.2 → ¬∃ u, p1.2.data ++ u = p2.2.data) ∧
    ((Node.internal 3 (Node.leaf 1 'b') (Node.leaf 2 'a')).get_schema "").map
      (fun p => p.2.data) =
      (pathsWithChars (Node.internal 3 (Node.leaf 1 'b') (Node.leaf 2 'a'))).map Prod.snd :=
  c4_prefix_free_and_paths [('a', 2), ('b', 1)]
    (Node.internal 3 (Node.leaf 1 'b') (Node.leaf 2 'a')) (by decide) rfl
